import Mathlib

/-!
# Verification of the Blank-Cache policy engine (`src/lib/cache.ts`)

A shallow embedding of the cache library in `src/lib/cache.ts`.

Modelling decisions:

* A JavaScript `Map` is embedded as an insertion-ordered association list
  `List (Nat × β)`.  `Map.get` returns the first binding, `Map.set` updates
  an existing binding in place (keeping its position, as JS does) or appends
  a new one, `Map.delete` removes the binding.  All reachable states have
  pairwise-distinct keys, so removing every occurrence is the same as
  removing the one occurrence.
* Keys produced by `crypto.randomUUID()` are modelled by a fresh-key counter
  `nextKey` in the state: the only property the code relies on is that a new
  key is distinct from every live key.
* Timestamps (`Date.now()` values, ms) are natural numbers supplied to each
  operation as a `now` argument.
* The `expires` field has TypeScript type `number | false`; it is embedded
  as `Option Nat` with `none` for `false`.
* `setTimeout` handles are modelled by a counter `nextTimer` starting at 1,
  so every stored handle is nonzero, matching the truthiness test
  `if (timerId)` in the source (real `setTimeout` ids are positive).
  `clearTimeout` itself has no observable effect on the two maps; cancelling
  a timer is observable as removal from the `timers` map.
-/

namespace BlankCache

/-- Embeds `interface CacheEntry` (cache.ts lines 16-22).
`expires : number | false` becomes `Option Nat` (`none` = `false`). -/
structure CacheEntry (α : Type) where
  expires : Option Nat
  content : α
  index : Nat
  frequency : Nat
  insertedAt : Nat
deriving DecidableEq

/-- The three capacity-bounded policy tags of `NonExpireOption` (cache.ts lines 7-11). -/
inductive BoundedPolicy where
  | LRU
  | LFU
  | FIFO
deriving DecidableEq

/-- Embeds the discriminated union `type Option = ExpireOption | NonExpireOption`
(cache.ts lines 2-14): a bounded policy carries `max`, EXPIRE carries `maxAge`. -/
inductive CacheOption where
  | bounded (policy : BoundedPolicy) (max : Nat)
  | expire (maxAge : Nat)
deriving DecidableEq

/-- Embeds `Map.prototype.get`: the value of the first binding of `k`, if any. -/
def mapGet {β : Type} (m : List (Nat × β)) (k : Nat) : Option β :=
  (m.find? (fun p => p.1 == k)).map (fun p => p.2)

/-- Embeds `Map.prototype.set`: update the binding of `k` in place if present
(keeping its position, as JS `Map` does), otherwise append it. -/
def mapSet {β : Type} (m : List (Nat × β)) (k : Nat) (v : β) : List (Nat × β) :=
  if m.any (fun p => p.1 == k) then
    m.map (fun p => if p.1 == k then (k, v) else p)
  else
    m ++ [(k, v)]

/-- Embeds `Map.prototype.delete`: remove the binding of `k` (keys are distinct in
every reachable state, so filtering removes the one binding). -/
def mapDelete {β : Type} (m : List (Nat × β)) (k : Nat) : List (Nat × β) :=
  m.filter (fun p => p.1 != k)

/-- The whole closure state of one `Cache(option)` call (cache.ts lines 52-54):
the entry map `cache`, the `timers` map, plus the two freshness counters that
model `crypto.randomUUID()` and `setTimeout` handle generation. -/
structure CacheState (α : Type) where
  entries : List (Nat × CacheEntry α)
  timers : List (Nat × Nat)
  nextKey : Nat
  nextTimer : Nat
deriving DecidableEq

/-- The state of a freshly constructed cache: two empty maps. -/
def initState {α : Type} : CacheState α :=
  { entries := [], timers := [], nextKey := 0, nextTimer := 1 }

/-- Embeds the timer-cancellation idiom used throughout the source
(e.g. cache.ts lines 74-78): `const timerId = timers.get(key);
if (timerId) { clearTimeout(timerId); timers.delete(key); }`.
The truthiness test is the `timerId ≠ 0` guard. -/
def clearTimer (timers : List (Nat × Nat)) (key : Nat) : List (Nat × Nat) :=
  match mapGet timers key with
  | some timerId => if timerId != 0 then mapDelete timers key else timers
  | none => timers

/-- Embeds `_get_lru_key` (cache.ts lines 155-164): the first key whose
`index` equals `cache.size - 1`.  (For an empty map JS computes `-1` and the
loop finds nothing; here `0 - 1 = 0` and `find?` on `[]` is `none` — the
result is `none` either way.) -/
def _get_lru_key {α : Type} (entries : List (Nat × CacheEntry α)) : Option Nat :=
  (entries.find? (fun p => p.2.index == entries.length - 1)).map (fun p => p.1)

/-- Embeds `_get_lfu_key` (cache.ts lines 166-177): the first key whose
`frequency` equals the minimum frequency.  (`Math.min()` of an empty spread
is `Infinity` and the loop finds nothing, hence `none` on the empty map.) -/
def _get_lfu_key {α : Type} (entries : List (Nat × CacheEntry α)) : Option Nat :=
  match (entries.map (fun p => p.2.frequency)).min? with
  | none => none
  | some minFrequency =>
    (entries.find? (fun p => p.2.frequency == minFrequency)).map (fun p => p.1)

/-- Embeds `_get_fifo_key` (cache.ts lines 179-190): the first key whose
`insertedAt` equals the minimum `insertedAt`. -/
def _get_fifo_key {α : Type} (entries : List (Nat × CacheEntry α)) : Option Nat :=
  match (entries.map (fun p => p.2.insertedAt)).min? with
  | none => none
  | some minInsertedAt =>
    (entries.find? (fun p => p.2.insertedAt == minInsertedAt)).map (fun p => p.1)

/-- Embeds `_update_lru_entries` (cache.ts lines 192-202): the accessed
entry's `index` becomes 0, every other entry's `index` is incremented.
The JS loop re-`set`s each existing key in place, so it is a `map`. -/
def _update_lru_entries {α : Type} (keyUnique : Nat)
    (entries : List (Nat × CacheEntry α)) : List (Nat × CacheEntry α) :=
  entries.map (fun p =>
    if p.1 == keyUnique then (p.1, { p.2 with index := 0 })
    else (p.1, { p.2 with index := p.2.index + 1 }))

/-- Embeds `_update_lfu_entries` (cache.ts lines 204-210): only the accessed
entry's `frequency` is incremented. -/
def _update_lfu_entries {α : Type} (keyUnique : Nat)
    (entries : List (Nat × CacheEntry α)) : List (Nat × CacheEntry α) :=
  entries.map (fun p =>
    if p.1 == keyUnique then (p.1, { p.2 with frequency := p.2.frequency + 1 })
    else p)

/-- Embeds `_update_fifo_entries` (cache.ts lines 212-220): only the accessed
entry's `insertedAt` is reset to `Date.now()`. -/
def _update_fifo_entries {α : Type} (now keyUnique : Nat)
    (entries : List (Nat × CacheEntry α)) : List (Nat × CacheEntry α) :=
  entries.map (fun p =>
    if p.1 == keyUnique then (p.1, { p.2 with insertedAt := now })
    else p)

/-- The entry record created by `set` (cache.ts lines 116, 124, 132, 136-142):
under the bounded policies `expires` is `false` (`none` here); under EXPIRE it
is `now + maxAge`; always `index = 0`, `frequency = 0`, `insertedAt = now`. -/
def newEntry {α : Type} (now : Nat) (value : α) (e : Option Nat) : CacheEntry α :=
  { expires := e, content := value, index := 0, frequency := 0, insertedAt := now }

/-- The expiry test of `get`/`has` (cache.ts lines 70-71, 280-281):
`option.type === "EXPIRE" && entry.expires !== false && Date.now() > entry.expires`. -/
def expiredAt {α : Type} (option : CacheOption) (now : Nat) (e : CacheEntry α) : Bool :=
  match option, e.expires with
  | .expire _, some t => now > t
  | _, _ => false

/-- Embeds `get` (cache.ts lines 65-94).  Returns the result
(`undefined` = `none`) together with the state after the call. -/
def get {α : Type} (option : CacheOption) (now key : Nat) (s : CacheState α) :
    Option α × CacheState α :=
  match mapGet s.entries key with
  | none => (none, s)
  | some cacheEntry =>
    if expiredAt option now cacheEntry then
      (none, { s with entries := mapDelete s.entries key,
                      timers := clearTimer s.timers key })
    else
      let entries1 :=
        match option with
        | .bounded .LRU _ => _update_lru_entries key s.entries
        | .bounded .LFU _ => _update_lfu_entries key s.entries
        | .bounded .FIFO _ => _update_fifo_entries now key s.entries
        | .expire _ => s.entries
      (some cacheEntry.content, { s with entries := entries1 })

/-- Embeds `set` (cache.ts lines 104-153).  The fresh UUID is modelled by
`s.nextKey`; the returned key is paired with the state after the call.
Under EXPIRE the scheduled `setTimeout` is recorded in the `timers` map with
a fresh nonzero handle. -/
def set {α : Type} (option : CacheOption) (now : Nat) (value : α)
    (s : CacheState α) : Nat × CacheState α :=
  let key := s.nextKey
  match option with
  | .bounded .LRU max =>
    let entries1 :=
      match _get_lru_key s.entries with
      | some lru_key =>
        if s.entries.length ≥ max then mapDelete s.entries lru_key else s.entries
      | none => s.entries
    let entries2 := entries1.map (fun p => (p.1, { p.2 with index := p.2.index + 1 }))
    let entries3 := mapSet entries2 key (newEntry now value none)
    (key, { s with entries := entries3, nextKey := key + 1 })
  | .bounded .LFU max =>
    let entries1 :=
      match _get_lfu_key s.entries with
      | some lfu_key =>
        if s.entries.length ≥ max then mapDelete s.entries lfu_key else s.entries
      | none => s.entries
    let entries2 := mapSet entries1 key (newEntry now value none)
    (key, { s with entries := entries2, nextKey := key + 1 })
  | .bounded .FIFO max =>
    let entries1 :=
      match _get_fifo_key s.entries with
      | some fifo_key =>
        if s.entries.length ≥ max then mapDelete s.entries fifo_key else s.entries
      | none => s.entries
    let entries2 := mapSet entries1 key (newEntry now value none)
    (key, { s with entries := entries2, nextKey := key + 1 })
  | .expire maxAge =>
    let entries1 := mapSet s.entries key (newEntry now value (some (now + maxAge)))
    let timerId := s.nextTimer
    let timers1 := mapSet s.timers key timerId
    (key, { s with entries := entries1, timers := timers1,
                   nextKey := key + 1, nextTimer := timerId + 1 })

/-- Embeds `remove` (cache.ts lines 256-266): under EXPIRE, cancel the
pending timer if any; then delete the entry. -/
def remove {α : Type} (option : CacheOption) (key : Nat) (s : CacheState α) :
    CacheState α :=
  let timers1 :=
    match option with
    | .expire _ => clearTimer s.timers key
    | _ => s.timers
  { s with entries := mapDelete s.entries key, timers := timers1 }

/-- Embeds `clear` (cache.ts lines 239-248): under EXPIRE, cancel every timer
and empty the timer map; then empty the entry map. -/
def clear {α : Type} (option : CacheOption) (s : CacheState α) : CacheState α :=
  let timers1 :=
    match option with
    | .expire _ => []
    | _ => s.timers
  { s with entries := [], timers := timers1 }

/-- Embeds `has` (cache.ts lines 275-294): like `get` it lazily deletes an
expired entry (and cancels its timer) under EXPIRE, but performs no policy
mutation. -/
def has {α : Type} (option : CacheOption) (now key : Nat) (s : CacheState α) :
    Bool × CacheState α :=
  match mapGet s.entries key with
  | none => (false, s)
  | some entry =>
    if expiredAt option now entry then
      (false, { s with entries := mapDelete s.entries key,
                       timers := clearTimer s.timers key })
    else
      (true, s)

/-- Holds (as `true`) iff the entry's deadline has passed at time `now`
(the test `entry.expires !== false && now > entry.expires`). -/
def isStale {α : Type} (now : Nat) (e : CacheEntry α) : Bool :=
  match e.expires with
  | some t => now > t
  | none => false

/-- Embeds `size` (cache.ts lines 302-318): under EXPIRE, sweep the map first,
deleting every stale entry and cancelling its timer; then return the count.
Under the bounded policies, return the count directly. -/
def size {α : Type} (option : CacheOption) (now : Nat) (s : CacheState α) :
    Nat × CacheState α :=
  match option with
  | .expire _ =>
    let entries1 := s.entries.filter (fun p => !isStale now p.2)
    let staleKeys := (s.entries.filter (fun p => isStale now p.2)).map (fun p => p.1)
    let timers1 := staleKeys.foldl (fun ts k => clearTimer ts k) s.timers
    (entries1.length, { s with entries := entries1, timers := timers1 })
  | _ => (s.entries.length, s)

/-- The configuration-error type the specification describes.  The source
contains no such class and no `throw` anywhere. -/
structure ConfigurationError where
deriving DecidableEq

/-- Embeds the constructor `Cache(option)` (cache.ts lines 52-56, 319-321):
it creates two empty maps and returns the API object.  The result type is
`Except ConfigurationError _` so that the presence or absence of a
construction-time error is expressible; the source performs no validation of
`option` whatsoever and has no error path, so the result is always `ok`. -/
def Cache {α : Type} (option : CacheOption) :
    Except ConfigurationError (CacheState α) :=
  .ok (initState (α := α))

/-- One public API call, for stating reachability: the timestamp at which the
call happens is part of the event. -/
inductive Op (α : Type) where
  | opSet (now : Nat) (value : α)
  | opGet (now key : Nat)
  | opHas (now key : Nat)
  | opRemove (key : Nat)
  | opClear
  | opSize (now : Nat)
deriving DecidableEq

/-- The state after one API call (discarding the returned value). -/
def applyOp {α : Type} (option : CacheOption) (s : CacheState α) : Op α → CacheState α
  | .opSet now v => (set option now v s).2
  | .opGet now k => (get option now k s).2
  | .opHas now k => (has option now k s).2
  | .opRemove k => remove option k s
  | .opClear => clear option s
  | .opSize now => (size option now s).2

/-- The state of a freshly constructed cache after a sequence of API calls. -/
def runOps {α : Type} (option : CacheOption) (ops : List (Op α)) : CacheState α :=
  ops.foldl (applyOp option) initState

/-- A state is reachable if some call sequence produces it from construction. -/
def Reachable {α : Type} (option : CacheOption) (s : CacheState α) : Prop :=
  ∃ ops : List (Op α), runOps option ops = s

/-! ## Lemmas about the association-list map model -/

theorem mapGet_cons {β : Type} (p : Nat × β) (m : List (Nat × β)) (k : Nat) :
    mapGet (p :: m) k = if p.1 == k then some p.2 else mapGet m k := by
  cases h : (p.1 == k) <;> simp [mapGet, List.find?_cons, h]

theorem mapDelete_cons {β : Type} (p : Nat × β) (m : List (Nat × β)) (k : Nat) :
    mapDelete (p :: m) k = if p.1 == k then mapDelete m k else p :: mapDelete m k := by
  by_cases h : p.1 = k <;> simp [mapDelete, List.filter_cons, h]

theorem mapGet_eq_none_iff {β : Type} {m : List (Nat × β)} {k : Nat} :
    mapGet m k = none ↔ ∀ p ∈ m, p.1 ≠ k := by
  simp [mapGet, List.find?_eq_none]

theorem mem_of_mapGet_eq_some {β : Type} {m : List (Nat × β)} {k : Nat} {v : β}
    (h : mapGet m k = some v) : (k, v) ∈ m := by
  simp only [mapGet, Option.map_eq_some'] at h
  obtain ⟨p, hp, hv⟩ := h
  have h1 := List.find?_some hp
  have h2 := List.mem_of_find?_eq_some hp
  have : p.1 = k := by simpa using h1
  have : p = (k, v) := by
    cases p
    simp_all
  simpa [this] using h2

theorem mapGet_of_mem_nodup {β : Type} {m : List (Nat × β)}
    (hnd : (m.map Prod.fst).Nodup) {p : Nat × β} (hp : p ∈ m) :
    mapGet m p.1 = some p.2 := by
  induction m with
  | nil => simp at hp
  | cons q m ih =>
    rw [List.map_cons, List.nodup_cons] at hnd
    rw [mapGet_cons]
    rcases List.mem_cons.mp hp with h | h
    · simp [h]
    · have hne : q.1 ≠ p.1 := by
        intro he
        exact hnd.1 (he ▸ List.mem_map_of_mem Prod.fst h)
      simp only [beq_iff_eq, hne, if_false]
      exact ih hnd.2 h

theorem mapGet_mapDelete_self {β : Type} (m : List (Nat × β)) (k : Nat) :
    mapGet (mapDelete m k) k = none := by
  rw [mapGet_eq_none_iff]
  intro p hp
  have := List.of_mem_filter hp
  simpa using this

theorem mapGet_mapDelete_ne {β : Type} (m : List (Nat × β)) {k kk : Nat}
    (h : kk ≠ k) : mapGet (mapDelete m k) kk = mapGet m kk := by
  induction m with
  | nil => rfl
  | cons p m ih =>
    rw [mapDelete_cons]
    by_cases hp : p.1 = k
    · have hpk : (p.1 == kk) = false := by
        rw [beq_eq_false_iff_ne, hp]
        exact fun he => h he.symm
      rw [if_pos (beq_iff_eq.mpr hp), mapGet_cons, hpk]
      simpa using ih
    · rw [if_neg (by simpa using hp), mapGet_cons, mapGet_cons, ih]

theorem mapDelete_eq_self {β : Type} {m : List (Nat × β)} {k : Nat}
    (h : mapGet m k = none) : mapDelete m k = m := by
  rw [mapGet_eq_none_iff] at h
  exact List.filter_eq_self.mpr (fun p hp => by simpa using h p hp)

theorem mem_mapDelete_of_ne {β : Type} {m : List (Nat × β)} {p : Nat × β}
    (hp : p ∈ m) {k : Nat} (h : p.1 ≠ k) : p ∈ mapDelete m k :=
  List.mem_filter.mpr ⟨hp, by simpa using h⟩

theorem mapDelete_subset {β : Type} {m : List (Nat × β)} {k : Nat} {p : Nat × β}
    (hp : p ∈ mapDelete m k) : p ∈ m :=
  List.mem_of_mem_filter hp

theorem length_mapDelete_of_mem {β : Type} {m : List (Nat × β)}
    (hnd : (m.map Prod.fst).Nodup) {k : Nat} {v : β} (hm : (k, v) ∈ m) :
    (mapDelete m k).length + 1 = m.length := by
  induction m with
  | nil => simp at hm
  | cons q m ih =>
    rw [List.map_cons, List.nodup_cons] at hnd
    rw [mapDelete_cons]
    rcases List.mem_cons.mp hm with h | h
    · have hq : q.1 = k := by rw [← h]
      have : mapGet m k = none := by
        rw [mapGet_eq_none_iff]
        intro p hp he
        exact hnd.1 (by rw [hq, ← he]; exact List.mem_map_of_mem Prod.fst hp)
      simp [hq, mapDelete_eq_self this]
    · have hq : q.1 ≠ k := by
        intro he
        exact hnd.1 (by rw [he]; exact List.mem_map_of_mem Prod.fst (by simpa using h))
      simp only [hq, beq_iff_eq, if_false, List.length_cons]
      rw [← ih hnd.2 h]

theorem mapSet_fresh {β : Type} {m : List (Nat × β)} {k : Nat}
    (h : ∀ p ∈ m, p.1 ≠ k) (v : β) : mapSet m k v = m ++ [(k, v)] := by
  have : m.any (fun p => p.1 == k) = false := by
    rw [List.any_eq_false]
    intro p hp
    simpa using h p hp
  simp [mapSet, this]

theorem mem_mapSet_of_ne {β : Type} {m : List (Nat × β)} {k : Nat} {v : β}
    {p : Nat × β} (hp : p ∈ mapSet m k v) (h : p.1 ≠ k) : p ∈ m := by
  rw [mapSet] at hp
  split at hp
  · obtain ⟨q, hq, he⟩ := List.mem_map.mp hp
    by_cases hqk : q.1 = k
    · rw [if_pos (beq_iff_eq.mpr hqk)] at he
      exact absurd (by rw [← he]) h
    · rw [if_neg (by simpa using hqk)] at he
      exact he ▸ hq
  · rcases List.mem_append.mp hp with h1 | h1
    · exact h1
    · exact absurd (by rw [List.mem_singleton.mp h1]) h

theorem mapGet_append_fresh {β : Type} {m : List (Nat × β)} {k : Nat}
    (h : ∀ p ∈ m, p.1 ≠ k) (v : β) : mapGet (m ++ [(k, v)]) k = some v := by
  induction m with
  | nil => simp [mapGet]
  | cons q m ih =>
    rw [List.cons_append, mapGet_cons]
    have : (q.1 == k) = false := by simpa using h q (List.mem_cons_self q m)
    rw [this]
    simp only [Bool.false_eq_true, if_false]
    exact ih (fun p hp => h p (List.mem_cons_of_mem q hp))

theorem mapGet_map_fst_eq {β : Type} (f : Nat × β → Nat × β)
    (hf : ∀ p, (f p).1 = p.1) (m : List (Nat × β)) (k : Nat) :
    mapGet (m.map f) k = (m.find? (fun p => p.1 == k)).map (fun p => (f p).2) := by
  induction m with
  | nil => rfl
  | cons p m ih =>
    rw [List.map_cons, mapGet_cons, hf]
    cases h : (p.1 == k)
    · simp only [Bool.false_eq_true, if_false, List.find?_cons, h, ih]
    · simp [List.find?_cons, h]

theorem keys_map_fst_eq {β : Type} (f : Nat × β → Nat × β)
    (hf : ∀ p, (f p).1 = p.1) (m : List (Nat × β)) :
    (m.map f).map Prod.fst = m.map Prod.fst := by
  induction m with
  | nil => rfl
  | cons p m ih => simp [hf, ih]

theorem mapGet_eq_some_of_find? {β : Type} {m : List (Nat × β)} {k : Nat}
    {p : Nat × β} (h : m.find? (fun q => q.1 == k) = some p) :
    mapGet m k = some p.2 := by
  simp [mapGet, h]

/-! ## Lemmas about timer cancellation -/

theorem clearTimer_subset {ts : List (Nat × Nat)} {k : Nat} {p : Nat × Nat}
    (hp : p ∈ clearTimer ts k) : p ∈ ts := by
  rw [clearTimer] at hp
  split at hp
  · split at hp
    · exact mapDelete_subset hp
    · exact hp
  · exact hp

theorem mapGet_clearTimer_self {ts : List (Nat × Nat)} {k : Nat}
    (h : ∀ p ∈ ts, p.2 ≠ 0) : mapGet (clearTimer ts k) k = none := by
  cases hm : mapGet ts k with
  | none => simp [clearTimer, hm]
  | some tid =>
    have htid : tid ≠ 0 := h (k, tid) (mem_of_mapGet_eq_some hm)
    simp only [clearTimer, hm]
    rw [if_pos (by simpa using htid)]
    exact mapGet_mapDelete_self ts k

theorem mapGet_clearTimer_of_none {ts : List (Nat × Nat)} {k kk : Nat}
    (h : mapGet ts k = none) : mapGet (clearTimer ts kk) k = none := by
  cases hm : mapGet ts kk with
  | none => simp only [clearTimer, hm]; exact h
  | some tid =>
    simp only [clearTimer, hm]
    by_cases ht : (tid != 0) = true
    · rw [if_pos ht]
      by_cases he : k = kk
      · rw [he]; exact mapGet_mapDelete_self ts kk
      · rw [mapGet_mapDelete_ne ts he]; exact h
    · rw [if_neg ht]; exact h

theorem foldl_clearTimer_of_none {ks : List Nat} {ts : List (Nat × Nat)} {k : Nat}
    (h : mapGet ts k = none) :
    mapGet (ks.foldl (fun a b => clearTimer a b) ts) k = none := by
  induction ks generalizing ts with
  | nil => exact h
  | cons k0 ks ih => exact ih (mapGet_clearTimer_of_none h)

theorem foldl_clearTimer_of_mem {ks : List Nat} {ts : List (Nat × Nat)}
    (hts : ∀ p ∈ ts, p.2 ≠ 0) {k : Nat} (hk : k ∈ ks) :
    mapGet (ks.foldl (fun a b => clearTimer a b) ts) k = none := by
  induction ks generalizing ts with
  | nil => simp at hk
  | cons k0 ks ih =>
    rw [List.foldl_cons]
    rcases List.mem_cons.mp hk with h | h
    · subst h
      exact foldl_clearTimer_of_none (mapGet_clearTimer_self hts)
    · exact ih (fun p hp => hts p (clearTimer_subset hp)) h

theorem mem_mapSet {β : Type} {m : List (Nat × β)} {k : Nat} {v : β}
    {p : Nat × β} (hp : p ∈ mapSet m k v) : p = (k, v) ∨ p ∈ m := by
  rw [mapSet] at hp
  split at hp
  · obtain ⟨q, hq, he⟩ := List.mem_map.mp hp
    by_cases hqk : q.1 = k
    · rw [if_pos (beq_iff_eq.mpr hqk)] at he
      exact Or.inl he.symm
    · rw [if_neg (by simpa using hqk)] at he
      exact Or.inr (he ▸ hq)
  · rcases List.mem_append.mp hp with h1 | h1
    · exact Or.inr h1
    · exact Or.inl (List.mem_singleton.mp h1)

theorem expiredAt_bounded {α : Type} (bp : BoundedPolicy) (max now : Nat)
    (e : CacheEntry α) : expiredAt (.bounded bp max) now e = false := by
  cases he : e.expires <;> simp [expiredAt, he]

/-! ## Demonstration states -/

/-- LRU, capacity 2: two inserts (keys 0 and 1) followed by a read of key 1. -/
def lruDemoOps : List (Op Nat) := [.opSet 0 10, .opSet 1 20, .opGet 2 1]

/-- A small two-entry LRU-shaped state whose ranks are the permutation `[1, 0]`. -/
def demoState : CacheState Nat :=
  { entries := [(0, ⟨none, 10, 1, 0, 0⟩), (1, ⟨none, 20, 0, 0, 1⟩)],
    timers := [], nextKey := 2, nextTimer := 1 }

/-- A three-entry LFU-shaped state with frequencies 2, 1, 3. -/
def lfuDemoState : CacheState Nat :=
  { entries := [(0, ⟨none, 10, 0, 2, 0⟩), (1, ⟨none, 20, 0, 1, 1⟩),
                (2, ⟨none, 30, 0, 3, 2⟩)],
    timers := [], nextKey := 3, nextTimer := 1 }

/-- A three-entry FIFO-shaped state with insertion times 4, 2, 7. -/
def fifoDemoState : CacheState Nat :=
  { entries := [(0, ⟨none, 10, 0, 0, 4⟩), (1, ⟨none, 20, 0, 0, 2⟩),
                (2, ⟨none, 30, 0, 0, 7⟩)],
    timers := [], nextKey := 3, nextTimer := 1 }

/-- An EXPIRE-shaped state: one entry under key 0 with deadline 5 and a
pending timer with handle 1. -/
def expDemoState : CacheState Nat :=
  { entries := [(0, ⟨some 5, 42, 0, 0, 0⟩)], timers := [(0, 1)],
    nextKey := 1, nextTimer := 2 }

/-! ## Claim theorems -/

/-- C1: the claimed LRU invariant — after any operation sequence the multiset
of `index` values is `{0, …, n−1}` — fails on the code: after
`set; set; get (key 1)` under LRU with capacity 2 the live ranks are `[2, 0]`,
which is not a permutation of `range 2`.  The `get` re-normalization
increments the rank of entries that were *more* recent than the accessed one,
creating a gap. -/
theorem lru_rank_permutation_violated :
    ((runOps (CacheOption.bounded .LRU 2) lruDemoOps).entries.map
        (fun p => p.2.index)) = [2, 0] ∧
    ¬ ((runOps (CacheOption.bounded .LRU 2) lruDemoOps).entries.map
        (fun p => p.2.index)).Perm
      (List.range (runOps (CacheOption.bounded .LRU 2) lruDemoOps).entries.length) := by
  decide

/-- C2: the capacity bound fails on the code: under LRU with capacity 2, after
`set; set; get (key 1); set` the map holds 3 entries.  The rank gap created by
the `get` makes `_get_lru_key` find no entry with `index = size − 1`, so the
fourth `set` evicts nothing. -/
theorem lru_capacity_bound_violated :
    (runOps (CacheOption.bounded .LRU 2) (lruDemoOps ++ [.opSet 3 30])).entries.length = 3 ∧
    2 < (runOps (CacheOption.bounded .LRU 2) (lruDemoOps ++ [.opSet 3 30])).entries.length := by
  decide

/-- C4 counterexample: a `set` performed at capacity (size 2 ≥ max 2) in the
reachable state after `lruDemoOps` evicts no entry at all — both pre-existing
keys 0 and 1 are still live afterwards, refuting "exactly one entry is
evicted". -/
theorem lru_set_at_capacity_evicts_nothing :
    2 ≤ (runOps (CacheOption.bounded .LRU 2) lruDemoOps).entries.length ∧
    ((runOps (CacheOption.bounded .LRU 2) (lruDemoOps ++ [.opSet 3 30])).entries.map
        Prod.fst) = [0, 1, 2] := by
  decide

/-- C3 counterexample: constructing with LRU and capacity 0 — not a positive
capacity, hence an "inconsistent configuration" — does not raise: the
constructor returns a cache (the source performs no validation at all). -/
theorem construction_without_positive_capacity_succeeds :
    Cache (α := Nat) (CacheOption.bounded .LRU 0) = .ok initState ∧
    ¬ (0 : Nat) > 0 :=
  ⟨rfl, by decide⟩

/-- C3 amended: construction never raises a `ConfigurationError` for any
configuration, consistent or not; it always returns the empty cache, and the
returned cache is usable — a `set` followed by a `get` of the returned key
yields the stored value under every policy. -/
theorem construction_always_succeeds {α : Type} (option : CacheOption) :
    Cache (α := α) option = .ok initState ∧
    ∀ now (v : α),
      (get option now (set option now v initState).1
        (set option now v initState).2).1 = some v := by
  refine ⟨rfl, fun now v => ?_⟩
  cases option with
  | bounded policy max =>
    cases policy <;>
      simp [set, get, _get_lru_key, _get_lfu_key, _get_fifo_key, initState,
        mapSet, mapGet, newEntry, expiredAt, List.find?]
  | expire maxAge =>
    have hne : expiredAt (CacheOption.expire maxAge) now
        (⟨some (now + maxAge), v, 0, 0, now⟩ : CacheEntry α) = false := by
      simp only [expiredAt, decide_eq_false_iff_not]
      omega
    simp [set, get, initState, mapSet, mapGet, newEntry, List.find?, hne]

/-- C9: for every policy and every key `k`, `remove k` deletes exactly the
entry for `k` (a no-op on the entry map when `k` is absent) and leaves the
full record — content, `index`, `frequency`, `insertedAt`, `expires` — of
every other entry unchanged; in particular under LRU the surviving ranks are
not re-normalized. -/
theorem remove_frame_effect {α : Type} (option : CacheOption) (k : Nat)
    (s : CacheState α) :
    mapGet (remove option k s).entries k = none ∧
    (∀ kk, kk ≠ k → mapGet (remove option k s).entries kk = mapGet s.entries kk) ∧
    (∀ p ∈ s.entries, p.1 ≠ k → p ∈ (remove option k s).entries) ∧
    (mapGet s.entries k = none → (remove option k s).entries = s.entries) :=
  ⟨mapGet_mapDelete_self s.entries k,
   fun _ h => mapGet_mapDelete_ne s.entries h,
   fun _ hp h => mem_mapDelete_of_ne hp h,
   fun h => mapDelete_eq_self h⟩

/-- C5: under EXPIRE, a `get` of a key whose entry satisfies `now > expiresAt`
deletes the entry, cancels and removes its pending timer, and returns the
not-found sentinel; `has` does the same returning `false`; and `get` never
returns the content of a logically expired entry — whenever it returns a
value, every deadline the entry carries has not passed — independently of
whether the background timer has fired. -/
theorem expire_lazy_expiry {α : Type} (maxAge now k t : Nat) (s : CacheState α)
    (e : CacheEntry α) (he : mapGet s.entries k = some e)
    (ht : e.expires = some t) (hexp : t < now)
    (htid : mapGet s.timers k ≠ some 0) :
    get (.expire maxAge) now k s =
      (none, { s with entries := mapDelete s.entries k,
                      timers := mapDelete s.timers k }) ∧
    has (.expire maxAge) now k s =
      (false, { s with entries := mapDelete s.entries k,
                       timers := mapDelete s.timers k }) ∧
    mapGet (mapDelete s.entries k) k = none ∧
    mapGet (mapDelete s.timers k) k = none ∧
    (∀ (s2 : CacheState α) (v : α), (get (.expire maxAge) now k s2).1 = some v →
      ∃ e2, mapGet s2.entries k = some e2 ∧ v = e2.content ∧
        ∀ u, e2.expires = some u → now ≤ u) := by
  have hexpB : expiredAt (CacheOption.expire maxAge) now e = true := by
    simp only [expiredAt, ht, decide_eq_true_eq]
    exact hexp
  have hclear : clearTimer s.timers k = mapDelete s.timers k := by
    cases hm : mapGet s.timers k with
    | none => simp only [clearTimer, hm]; exact (mapDelete_eq_self hm).symm
    | some tid =>
      have : tid ≠ 0 := fun h0 => htid (h0 ▸ hm)
      simp only [clearTimer, hm]
      rw [if_pos (by simpa using this)]
  refine ⟨?_, ?_, mapGet_mapDelete_self s.entries k, mapGet_mapDelete_self s.timers k, ?_⟩
  · simp only [get, he, hexpB, if_true, hclear]
  · simp only [has, he, hexpB, if_true, hclear]
  · intro s2 v hv
    cases hm : mapGet s2.entries k with
    | none => simp [get, hm] at hv
    | some e2 =>
      cases hx : expiredAt (CacheOption.expire maxAge) now e2 with
      | true => simp [get, hm, hx] at hv
      | false =>
        simp only [get, hm, hx, Bool.false_eq_true, if_false] at hv
        refine ⟨e2, rfl, (Option.some.injEq _ _ ▸ hv).symm, fun u hu => ?_⟩
        simp only [expiredAt, hu, decide_eq_false_iff_not] at hx
        omega

/-- C5 witness: in the one-entry EXPIRE demo state (deadline 5, timer handle 1),
a `get` and a `has` at time 6 delete the entry, remove the timer, and report
not-found. -/
theorem expire_lazy_expiry_witness :
    get (.expire 5) 6 0 expDemoState =
      ((none, ⟨[], [], 1, 2⟩) : Option Nat × CacheState Nat) ∧
    has (.expire 5) 6 0 expDemoState = (false, ⟨[], [], 1, 2⟩) := by
  have h := expire_lazy_expiry 5 6 0 5 expDemoState ⟨some 5, 42, 0, 0, 0⟩
    rfl rfl (by decide) (by decide)
  exact ⟨h.1.trans (by decide), h.2.1.trans (by decide)⟩

/-- C8: `size` under EXPIRE first deletes (cancelling its timer) every entry
whose deadline has passed and returns the resulting count — it never counts a
stale entry; under LRU/LFU/FIFO it returns the current entry count directly
and removes or modifies nothing. -/
theorem size_expire_sweeps {α : Type} (mAge now : Nat) (s : CacheState α)
    (htids : ∀ p ∈ s.timers, p.2 ≠ 0) :
    (size (.expire mAge) now s).1 = (size (.expire mAge) now s).2.entries.length ∧
    (∀ p ∈ s.entries, isStale now p.2 = false →
      p ∈ (size (.expire mAge) now s).2.entries) ∧
    (∀ p ∈ (size (.expire mAge) now s).2.entries,
      p ∈ s.entries ∧ isStale now p.2 = false) ∧
    (∀ p ∈ s.entries, isStale now p.2 = true →
      mapGet (size (.expire mAge) now s).2.timers p.1 = none) ∧
    (∀ (bp : BoundedPolicy) (max : Nat),
      size (.bounded bp max) now s = (s.entries.length, s)) := by
  refine ⟨rfl, ?_, ?_, ?_, fun bp max => rfl⟩
  · intro p hp hst
    simp only [size]
    exact List.mem_filter.mpr ⟨hp, by simp [hst]⟩
  · intro p hp
    simp only [size] at hp
    have h := List.mem_filter.mp hp
    exact ⟨h.1, by simpa using h.2⟩
  · intro p hp hst
    simp only [size]
    refine foldl_clearTimer_of_mem htids ?_
    exact List.mem_map.mpr ⟨p, List.mem_filter.mpr ⟨hp, hst⟩, rfl⟩

/-- C8 witness: sweeping the one-entry EXPIRE demo state at time 6 (deadline
5 has passed) reports count 0 and removes the entry's timer. -/
theorem size_expire_sweeps_witness :
    (size (.expire 5) 6 expDemoState).1 =
      (size (.expire 5) 6 expDemoState).2.entries.length ∧
    mapGet (size (.expire 5) 6 expDemoState).2.timers 0 = none := by
  have h := size_expire_sweeps 5 6 expDemoState (by decide)
  exact ⟨h.1, h.2.2.2.1 (0, ⟨some 5, 42, 0, 0, 0⟩) (by decide) (by decide)⟩

/-- C9 witness: removing key 0 from the two-entry demo state deletes key 0
and leaves the record of key 1 untouched. -/
theorem remove_frame_effect_witness :
    mapGet (remove (CacheOption.bounded .LRU 2) 0 demoState).entries 0 = none ∧
    mapGet (remove (CacheOption.bounded .LRU 2) 0 demoState).entries 1 =
      mapGet demoState.entries 1 := by
  have h := remove_frame_effect (CacheOption.bounded .LRU 2) 0 demoState
  exact ⟨h.1, h.2.1 1 (by decide)⟩

/-- Under a bounded policy `has` returns without modifying the state. -/
theorem has_bounded_state {α : Type} (bp : BoundedPolicy) (max now k : Nat)
    (s : CacheState α) : (has (.bounded bp max) now k s).2 = s := by
  cases hm : mapGet s.entries k with
  | none => simp [has, hm]
  | some e => simp [has, hm, expiredAt_bounded]

/-- One step of the no-expiry invariant: no API call under a bounded policy
ever stores an entry with a deadline. -/
theorem applyOp_bounded_no_expires {α : Type} (bp : BoundedPolicy) (max : Nat)
    (s : CacheState α) (hs : ∀ p ∈ s.entries, p.2.expires = none) (op : Op α) :
    ∀ p ∈ (applyOp (.bounded bp max) s op).entries, p.2.expires = none := by
  cases op with
  | opSet now v =>
    intro p hp
    cases bp
    case LRU =>
      simp only [applyOp, set] at hp
      rcases mem_mapSet hp with heq | hpm
      · rw [heq]; rfl
      · obtain ⟨q, hq, he⟩ := List.mem_map.mp hpm
        rw [← he]
        cases hk : _get_lru_key s.entries with
        | none =>
          simp only [hk] at hq
          exact hs q hq
        | some lk =>
          simp only [hk] at hq
          by_cases hc : s.entries.length ≥ max
          · rw [if_pos hc] at hq
            exact hs q (mapDelete_subset hq)
          · rw [if_neg hc] at hq
            exact hs q hq
    case LFU =>
      simp only [applyOp, set] at hp
      rcases mem_mapSet hp with heq | hpm
      · rw [heq]; rfl
      · cases hk : _get_lfu_key s.entries with
        | none =>
          simp only [hk] at hpm
          exact hs p hpm
        | some lk =>
          simp only [hk] at hpm
          by_cases hc : s.entries.length ≥ max
          · rw [if_pos hc] at hpm
            exact hs p (mapDelete_subset hpm)
          · rw [if_neg hc] at hpm
            exact hs p hpm
    case FIFO =>
      simp only [applyOp, set] at hp
      rcases mem_mapSet hp with heq | hpm
      · rw [heq]; rfl
      · cases hk : _get_fifo_key s.entries with
        | none =>
          simp only [hk] at hpm
          exact hs p hpm
        | some lk =>
          simp only [hk] at hpm
          by_cases hc : s.entries.length ≥ max
          · rw [if_pos hc] at hpm
            exact hs p (mapDelete_subset hpm)
          · rw [if_neg hc] at hpm
            exact hs p hpm
  | opGet now k =>
    intro p hp
    cases hm : mapGet s.entries k with
    | none =>
      simp only [applyOp, get, hm] at hp
      exact hs p hp
    | some e =>
      simp only [applyOp, get, hm, expiredAt_bounded, Bool.false_eq_true,
        if_false] at hp
      cases bp
      case LRU =>
        simp only [_update_lru_entries] at hp
        obtain ⟨q, hq, he⟩ := List.mem_map.mp hp
        rw [← he]
        by_cases h : q.1 = k
        · rw [if_pos (beq_iff_eq.mpr h)]
          exact hs q hq
        · rw [if_neg (by simpa using h)]
          exact hs q hq
      case LFU =>
        simp only [_update_lfu_entries] at hp
        obtain ⟨q, hq, he⟩ := List.mem_map.mp hp
        rw [← he]
        by_cases h : q.1 = k
        · rw [if_pos (beq_iff_eq.mpr h)]
          exact hs q hq
        · rw [if_neg (by simpa using h)]
          exact hs q hq
      case FIFO =>
        simp only [_update_fifo_entries] at hp
        obtain ⟨q, hq, he⟩ := List.mem_map.mp hp
        rw [← he]
        by_cases h : q.1 = k
        · rw [if_pos (beq_iff_eq.mpr h)]
          exact hs q hq
        · rw [if_neg (by simpa using h)]
          exact hs q hq
  | opHas now k =>
    intro p hp
    rw [show applyOp (.bounded bp max) s (Op.opHas now k)
          = (has (.bounded bp max) now k s).2 from rfl,
        has_bounded_state] at hp
    exact hs p hp
  | opRemove k =>
    intro p hp
    exact hs p (mapDelete_subset hp)
  | opClear =>
    intro p hp
    simp [applyOp, clear] at hp
  | opSize now =>
    intro p hp
    exact hs p hp

/-- The no-expiry invariant holds in every reachable bounded-policy state. -/
theorem runOps_bounded_no_expires {α : Type} (bp : BoundedPolicy) (max : Nat)
    (ops : List (Op α)) :
    ∀ p ∈ (runOps (.bounded bp max) ops).entries, p.2.expires = none := by
  suffices h : ∀ (s : CacheState α), (∀ p ∈ s.entries, p.2.expires = none) →
      ∀ p ∈ (ops.foldl (applyOp (.bounded bp max)) s).entries,
        p.2.expires = none from
    h initState (by simp [initState])
  induction ops with
  | nil => exact fun s hs => hs
  | cons op ops ih =>
    intro s hs
    rw [List.foldl_cons]
    exact ih _ (applyOp_bounded_no_expires bp max s hs op)

/-- C10: under LRU, LFU and FIFO every live entry of every reachable state
carries the no-expiry sentinel (`expires = false`); consequently the
expiry-deletion branches are never taken: `get` preserves the key list (it
deletes nothing), and `has` and `size` return with the state unchanged. -/
theorem bounded_no_expiry {α : Type} (bp : BoundedPolicy) (max : Nat)
    (s : CacheState α) (hr : Reachable (.bounded bp max) s) :
    (∀ p ∈ s.entries, p.2.expires = none) ∧
    (∀ now k, ((get (.bounded bp max) now k s).2.entries.map Prod.fst)
        = s.entries.map Prod.fst) ∧
    (∀ now k, (has (.bounded bp max) now k s).2 = s) ∧
    (∀ now, (size (.bounded bp max) now s).2 = s) := by
  obtain ⟨ops, rfl⟩ := hr
  refine ⟨runOps_bounded_no_expires bp max ops, ?_,
    fun now k => has_bounded_state bp max now k _, fun now => rfl⟩
  intro now k
  cases hm : mapGet (runOps (.bounded bp max) ops).entries k with
  | none => simp [get, hm]
  | some e =>
    simp only [get, hm, expiredAt_bounded, Bool.false_eq_true, if_false]
    cases bp
    case LRU =>
      exact keys_map_fst_eq _
        (fun p => by by_cases h : p.1 = k <;> simp [h]) _
    case LFU =>
      exact keys_map_fst_eq _
        (fun p => by by_cases h : p.1 = k <;> simp [h]) _
    case FIFO =>
      exact keys_map_fst_eq _
        (fun p => by by_cases h : p.1 = k <;> simp [h]) _

/-- C10 witness: in the reachable LRU state after `lruDemoOps`, every live
entry has `expires = none`, and `has`/`size` leave the state unchanged. -/
theorem bounded_no_expiry_witness :
    (∀ p ∈ (runOps (CacheOption.bounded .LRU 2) lruDemoOps).entries,
      p.2.expires = none) ∧
    (has (CacheOption.bounded .LRU 2) 7 0
      (runOps (CacheOption.bounded .LRU 2) lruDemoOps)).2
      = runOps (CacheOption.bounded .LRU 2) lruDemoOps := by
  have h := bounded_no_expiry .LRU 2 (runOps (CacheOption.bounded .LRU 2) lruDemoOps)
    ⟨lruDemoOps, rfl⟩
  exact ⟨h.1, h.2.2.1 7 0⟩

/-- Applied to a nonempty map, `_get_lfu_key` returns the first key (in iteration
order) whose entry attains the minimum `frequency`. -/
theorem _get_lfu_key_spec {α : Type} (entries : List (Nat × CacheEntry α))
    (hne : entries ≠ []) :
    ∃ vk ve pre post,
      _get_lfu_key entries = some vk ∧
      entries = pre ++ (vk, ve) :: post ∧
      (∀ p ∈ entries, ve.frequency ≤ p.2.frequency) ∧
      (∀ p ∈ pre, ve.frequency < p.2.frequency) := by
  obtain ⟨p0, hp0⟩ := List.exists_mem_of_ne_nil entries hne
  obtain ⟨m, hm⟩ := Option.isSome_iff_exists.mp
    (List.isSome_min?_of_mem (List.mem_map_of_mem (fun p => p.2.frequency) hp0))
  have hmem_le := List.min?_eq_some_iff'.mp hm
  have hfind : (entries.find? (fun p => p.2.frequency == m)).isSome := by
    obtain ⟨q, hq, hqm⟩ := List.mem_map.mp hmem_le.1
    exact List.find?_isSome.mpr ⟨q, hq, by simp [hqm]⟩
  obtain ⟨r, hr⟩ := Option.isSome_iff_exists.mp hfind
  obtain ⟨hrm, pre, post, hsplit, hpre⟩ := List.find?_eq_some.mp hr
  have hre : r.2.frequency = m := by simpa using hrm
  refine ⟨r.1, r.2, pre, post, by simp [_get_lfu_key, hm, hr], by simpa using hsplit,
    ?_, ?_⟩
  · intro p hp
    have := hmem_le.2 _ (List.mem_map_of_mem (fun p => p.2.frequency) hp)
    omega
  · intro p hp
    have h1 := hmem_le.2 _ (List.mem_map_of_mem (fun p => p.2.frequency)
      (hsplit ▸ List.mem_append.mpr (Or.inl hp)))
    have h2 : ¬ (p.2.frequency == m) = true := by simpa using hpre p hp
    rw [beq_iff_eq] at h2
    omega

/-- Applied to a nonempty map, `_get_fifo_key` returns the first key (in iteration
order) whose entry attains the minimum `insertedAt`. -/
theorem _get_fifo_key_spec {α : Type} (entries : List (Nat × CacheEntry α))
    (hne : entries ≠ []) :
    ∃ vk ve pre post,
      _get_fifo_key entries = some vk ∧
      entries = pre ++ (vk, ve) :: post ∧
      (∀ p ∈ entries, ve.insertedAt ≤ p.2.insertedAt) ∧
      (∀ p ∈ pre, ve.insertedAt < p.2.insertedAt) := by
  obtain ⟨p0, hp0⟩ := List.exists_mem_of_ne_nil entries hne
  obtain ⟨m, hm⟩ := Option.isSome_iff_exists.mp
    (List.isSome_min?_of_mem (List.mem_map_of_mem (fun p => p.2.insertedAt) hp0))
  have hmem_le := List.min?_eq_some_iff'.mp hm
  have hfind : (entries.find? (fun p => p.2.insertedAt == m)).isSome := by
    obtain ⟨q, hq, hqm⟩ := List.mem_map.mp hmem_le.1
    exact List.find?_isSome.mpr ⟨q, hq, by simp [hqm]⟩
  obtain ⟨r, hr⟩ := Option.isSome_iff_exists.mp hfind
  obtain ⟨hrm, pre, post, hsplit, hpre⟩ := List.find?_eq_some.mp hr
  have hre : r.2.insertedAt = m := by simpa using hrm
  refine ⟨r.1, r.2, pre, post, by simp [_get_fifo_key, hm, hr], by simpa using hsplit,
    ?_, ?_⟩
  · intro p hp
    have := hmem_le.2 _ (List.mem_map_of_mem (fun p => p.2.insertedAt) hp)
    omega
  · intro p hp
    have h1 := hmem_le.2 _ (List.mem_map_of_mem (fun p => p.2.insertedAt)
      (hsplit ▸ List.mem_append.mpr (Or.inl hp)))
    have h2 : ¬ (p.2.insertedAt == m) = true := by simpa using hpre p hp
    rw [beq_iff_eq] at h2
    omega

theorem mapGet_map_of_fix {β : Type} (f : Nat × β → Nat × β)
    (hf : ∀ p, (f p).1 = p.1) (m : List (Nat × β)) {kk : Nat}
    (hfix : ∀ p, p.1 = kk → f p = p) :
    mapGet (m.map f) kk = mapGet m kk := by
  rw [mapGet_map_fst_eq f hf]
  cases hq : m.find? (fun p => p.1 == kk) with
  | none => simp [mapGet, hq]
  | some q =>
    have hq1 : q.1 = kk := by simpa using List.find?_some hq
    simp [mapGet, hq, hfix q hq1]

/-- The entry list after an LFU `set` is always `mapSet` of a sub-list of the
old entries (either the whole list, or the list with the victim deleted). -/
theorem set_lfu_entries {α : Type} (max now : Nat) (v : α) (s : CacheState α) :
    ∃ base : List (Nat × CacheEntry α),
      (∀ q ∈ base, q ∈ s.entries) ∧
      (set (.bounded .LFU max) now v s).2.entries
        = mapSet base s.nextKey (newEntry now v none) := by
  cases hk : _get_lfu_key s.entries with
  | none => exact ⟨s.entries, fun q h => h, by simp only [set, hk]⟩
  | some lk =>
    by_cases hc : s.entries.length ≥ max
    · refine ⟨mapDelete s.entries lk, fun q h => mapDelete_subset h, ?_⟩
      simp only [set, hk]
      rw [if_pos hc]
    · refine ⟨s.entries, fun q h => h, ?_⟩
      simp only [set, hk]
      rw [if_neg hc]

/-- The entry list after a FIFO `set`, in the same shape. -/
theorem set_fifo_entries {α : Type} (max now : Nat) (v : α) (s : CacheState α) :
    ∃ base : List (Nat × CacheEntry α),
      (∀ q ∈ base, q ∈ s.entries) ∧
      (set (.bounded .FIFO max) now v s).2.entries
        = mapSet base s.nextKey (newEntry now v none) := by
  cases hk : _get_fifo_key s.entries with
  | none => exact ⟨s.entries, fun q h => h, by simp only [set, hk]⟩
  | some lk =>
    by_cases hc : s.entries.length ≥ max
    · refine ⟨mapDelete s.entries lk, fun q h => mapDelete_subset h, ?_⟩
      simp only [set, hk]
      rw [if_pos hc]
    · refine ⟨s.entries, fun q h => h, ?_⟩
      simp only [set, hk]
      rw [if_neg hc]

/-- C7: under LFU, `accessFrequency` is 0 at insertion; each successful `get`
of a key increments exactly that entry's frequency by 1 and changes no other
entry (`set` never increments a surviving entry's record); and a `set` at
capacity evicts the first entry, in map iteration order, whose frequency is
minimal. -/
theorem lfu_frequency_and_eviction {α : Type} (max now k : Nat) (v : α)
    (s : CacheState α) :
    ((∀ p ∈ s.entries, p.1 ≠ s.nextKey) →
      (set (.bounded .LFU max) now v s).1 = s.nextKey ∧
      mapGet (set (.bounded .LFU max) now v s).2.entries s.nextKey
        = some (newEntry now v none) ∧
      (newEntry now v (none : Option Nat)).frequency = 0) ∧
    (∀ e : CacheEntry α, mapGet s.entries k = some e →
      (get (.bounded .LFU max) now k s).1 = some e.content ∧
      mapGet (get (.bounded .LFU max) now k s).2.entries k
        = some { e with frequency := e.frequency + 1 } ∧
      (∀ kk, kk ≠ k →
        mapGet (get (.bounded .LFU max) now k s).2.entries kk
          = mapGet s.entries kk)) ∧
    (∀ p ∈ (set (.bounded .LFU max) now v s).2.entries,
      p.1 ≠ s.nextKey → p ∈ s.entries) ∧
    ((s.entries.map Prod.fst).Nodup → (∀ p ∈ s.entries, p.1 ≠ s.nextKey) →
      0 < max → max ≤ s.entries.length →
      ∃ vk ve pre post,
        _get_lfu_key s.entries = some vk ∧
        s.entries = pre ++ (vk, ve) :: post ∧
        (∀ p ∈ s.entries, ve.frequency ≤ p.2.frequency) ∧
        (∀ p ∈ pre, ve.frequency < p.2.frequency) ∧
        (set (.bounded .LFU max) now v s).2.entries
          = mapDelete s.entries vk ++ [(s.nextKey, newEntry now v none)] ∧
        (set (.bounded .LFU max) now v s).2.entries.length
          = s.entries.length) := by
  obtain ⟨base, hbase, hbeq⟩ := set_lfu_entries max now v s
  refine ⟨?_, ?_, ?_, ?_⟩
  · intro hfresh
    have hfb : ∀ q ∈ base, q.1 ≠ s.nextKey := fun q h => hfresh q (hbase q h)
    refine ⟨rfl, ?_, rfl⟩
    rw [hbeq, mapSet_fresh hfb]
    exact mapGet_append_fresh hfb _
  · intro e he
    obtain ⟨p0, hp0, hp02⟩ := Option.map_eq_some'.mp he
    have hp01 : p0.1 = k := by simpa using List.find?_some hp0
    have hget : (get (.bounded .LFU max) now k s)
        = (some e.content, { s with entries := _update_lfu_entries k s.entries }) := by
      simp only [get, he, expiredAt_bounded, Bool.false_eq_true, if_false]
    have hf : ∀ p : Nat × CacheEntry α,
        ((if p.1 == k then (p.1, { p.2 with frequency := p.2.frequency + 1 })
          else p) : Nat × CacheEntry α).1 = p.1 := by
      intro p
      by_cases h : p.1 = k <;> simp [h]
    refine ⟨by rw [hget], ?_, ?_⟩
    · rw [hget]
      show mapGet (_update_lfu_entries k s.entries) k = _
      rw [_update_lfu_entries, mapGet_map_fst_eq _ hf, hp0]
      simp [hp01, ← hp02]
    · intro kk hkk
      rw [hget]
      show mapGet (_update_lfu_entries k s.entries) kk = _
      rw [_update_lfu_entries]
      refine mapGet_map_of_fix _ hf _ (fun p hp => ?_)
      have hpk : ¬ (p.1 == k) = true := by
        simp only [beq_iff_eq, hp]
        exact hkk
      rw [if_neg hpk]
  · intro p hp hne
    rw [hbeq] at hp
    exact hbase p (mem_mapSet_of_ne hp hne)
  · intro hnd hfresh hmax hcap
    have hne : s.entries ≠ [] := List.ne_nil_of_length_pos (by omega)
    obtain ⟨vk, ve, pre, post, hk, hsplit, hmin, hfirst⟩ :=
      _get_lfu_key_spec s.entries hne
    have hvm : (vk, ve) ∈ s.entries := by
      rw [hsplit]
      exact List.mem_append.mpr (Or.inr (List.mem_cons_self _ _))
    have heq : (set (.bounded .LFU max) now v s).2.entries
        = mapDelete s.entries vk ++ [(s.nextKey, newEntry now v none)] := by
      simp only [set, hk]
      rw [if_pos hcap,
        mapSet_fresh (fun q h => hfresh q (mapDelete_subset h))]
    refine ⟨vk, ve, pre, post, hk, hsplit, hmin, hfirst, heq, ?_⟩
    rw [heq, List.length_append, List.length_singleton,
      length_mapDelete_of_mem hnd hvm]

/-- C7 witness: in a three-entry LFU state with frequencies 2, 1, 3, a `set`
at capacity 3 evicts key 1 (the unique minimal frequency), and a `get` of
key 0 bumps its frequency from 2 to 3. -/
theorem lfu_frequency_and_eviction_witness :
    (∃ vk ve pre post,
      _get_lfu_key lfuDemoState.entries = some vk ∧
      lfuDemoState.entries = pre ++ (vk, ve) :: post ∧
      (∀ p ∈ lfuDemoState.entries, ve.frequency ≤ p.2.frequency) ∧
      (∀ p ∈ pre, ve.frequency < p.2.frequency) ∧
      (set (.bounded .LFU 3) 5 99 lfuDemoState).2.entries
        = mapDelete lfuDemoState.entries vk ++ [(3, newEntry 5 99 none)] ∧
      (set (.bounded .LFU 3) 5 99 lfuDemoState).2.entries.length
        = lfuDemoState.entries.length) ∧
    mapGet (get (.bounded .LFU 3) 5 0 lfuDemoState).2.entries 0
      = some ⟨none, 10, 0, 3, 0⟩ := by
  have h := lfu_frequency_and_eviction 3 5 0 99 lfuDemoState
  exact ⟨h.2.2.2 (by decide) (by decide) (by decide) (by decide),
    (h.2.1 ⟨none, 10, 0, 2, 0⟩ rfl).2.1⟩

/-- C6: under FIFO, every successful `get` of a key resets exactly that
entry's `insertedAt` to the current time and changes no other entry; a `set`
at capacity evicts the first entry, in map iteration order, whose
`insertedAt` is minimal (so reads reorder FIFO eviction order); and a new
entry is inserted with `insertedAt = now`. -/
theorem fifo_access_reset_and_eviction {α : Type} (max now k : Nat) (v : α)
    (s : CacheState α) :
    (∀ e : CacheEntry α, mapGet s.entries k = some e →
      (get (.bounded .FIFO max) now k s).1 = some e.content ∧
      mapGet (get (.bounded .FIFO max) now k s).2.entries k
        = some { e with insertedAt := now } ∧
      (∀ kk, kk ≠ k →
        mapGet (get (.bounded .FIFO max) now k s).2.entries kk
          = mapGet s.entries kk)) ∧
    ((s.entries.map Prod.fst).Nodup → (∀ p ∈ s.entries, p.1 ≠ s.nextKey) →
      0 < max → max ≤ s.entries.length →
      ∃ vk ve pre post,
        _get_fifo_key s.entries = some vk ∧
        s.entries = pre ++ (vk, ve) :: post ∧
        (∀ p ∈ s.entries, ve.insertedAt ≤ p.2.insertedAt) ∧
        (∀ p ∈ pre, ve.insertedAt < p.2.insertedAt) ∧
        (set (.bounded .FIFO max) now v s).2.entries
          = mapDelete s.entries vk ++ [(s.nextKey, newEntry now v none)] ∧
        (set (.bounded .FIFO max) now v s).2.entries.length
          = s.entries.length) ∧
    (newEntry now v (none : Option Nat)).insertedAt = now := by
  refine ⟨?_, ?_, rfl⟩
  · intro e he
    obtain ⟨p0, hp0, hp02⟩ := Option.map_eq_some'.mp he
    have hp01 : p0.1 = k := by simpa using List.find?_some hp0
    have hget : (get (.bounded .FIFO max) now k s)
        = (some e.content, { s with entries := _update_fifo_entries now k s.entries }) := by
      simp only [get, he, expiredAt_bounded, Bool.false_eq_true, if_false]
    have hf : ∀ p : Nat × CacheEntry α,
        ((if p.1 == k then (p.1, { p.2 with insertedAt := now })
          else p) : Nat × CacheEntry α).1 = p.1 := by
      intro p
      by_cases h : p.1 = k <;> simp [h]
    refine ⟨by rw [hget], ?_, ?_⟩
    · rw [hget]
      show mapGet (_update_fifo_entries now k s.entries) k = _
      rw [_update_fifo_entries, mapGet_map_fst_eq _ hf, hp0]
      simp [hp01, ← hp02]
    · intro kk hkk
      rw [hget]
      show mapGet (_update_fifo_entries now k s.entries) kk = _
      rw [_update_fifo_entries]
      refine mapGet_map_of_fix _ hf _ (fun p hp => ?_)
      have hpk : ¬ (p.1 == k) = true := by
        simp only [beq_iff_eq, hp]
        exact hkk
      rw [if_neg hpk]
  · intro hnd hfresh hmax hcap
    have hne : s.entries ≠ [] := List.ne_nil_of_length_pos (by omega)
    obtain ⟨vk, ve, pre, post, hk, hsplit, hmin, hfirst⟩ :=
      _get_fifo_key_spec s.entries hne
    have hvm : (vk, ve) ∈ s.entries := by
      rw [hsplit]
      exact List.mem_append.mpr (Or.inr (List.mem_cons_self _ _))
    have heq : (set (.bounded .FIFO max) now v s).2.entries
        = mapDelete s.entries vk ++ [(s.nextKey, newEntry now v none)] := by
      simp only [set, hk]
      rw [if_pos hcap,
        mapSet_fresh (fun q h => hfresh q (mapDelete_subset h))]
    refine ⟨vk, ve, pre, post, hk, hsplit, hmin, hfirst, heq, ?_⟩
    rw [heq, List.length_append, List.length_singleton,
      length_mapDelete_of_mem hnd hvm]

/-- C6 witness: in the three-entry FIFO state with insertion times 4, 2, 7, a
`get` of key 0 at time 9 resets its `insertedAt` to 9, and a `set` at
capacity 3 evicts key 1 (minimal `insertedAt` 2). -/
theorem fifo_access_reset_and_eviction_witness :
    mapGet (get (.bounded .FIFO 3) 9 0 fifoDemoState).2.entries 0
      = some ⟨none, 10, 0, 0, 9⟩ ∧
    (∃ vk ve pre post,
      _get_fifo_key fifoDemoState.entries = some vk ∧
      fifoDemoState.entries = pre ++ (vk, ve) :: post ∧
      (∀ p ∈ fifoDemoState.entries, ve.insertedAt ≤ p.2.insertedAt) ∧
      (∀ p ∈ pre, ve.insertedAt < p.2.insertedAt) ∧
      (set (.bounded .FIFO 3) 9 99 fifoDemoState).2.entries
        = mapDelete fifoDemoState.entries vk ++ [(3, newEntry 9 99 none)] ∧
      (set (.bounded .FIFO 3) 9 99 fifoDemoState).2.entries.length
        = fifoDemoState.entries.length) := by
  have h := fifo_access_reset_and_eviction 3 9 0 99 fifoDemoState
  exact ⟨(h.1 ⟨none, 10, 0, 0, 4⟩ rfl).2.1,
    h.2.1 (by decide) (by decide) (by decide) (by decide)⟩

/-- C4 (amended): under LRU, for every `set` performed at capacity in a state
whose ranks form a permutation of `{0, …, n−1}` (as every `remove`-free and
gap-free history guarantees), exactly one entry is evicted, namely the unique
entry with the maximum rank `n − 1`; every remaining entry's rank is then
incremented by 1 and the new entry is inserted with rank 0. -/
theorem lru_set_evicts_unique_max_rank {α : Type} (max now : Nat) (v : α)
    (s : CacheState α)
    (hperm : (s.entries.map (fun p => p.2.index)).Perm
      (List.range s.entries.length))
    (hnd : (s.entries.map Prod.fst).Nodup)
    (hfresh : ∀ p ∈ s.entries, p.1 ≠ s.nextKey)
    (hmax : 0 < max) (hcap : max ≤ s.entries.length) :
    ∃ vk ve,
      _get_lru_key s.entries = some vk ∧
      mapGet s.entries vk = some ve ∧
      ve.index = s.entries.length - 1 ∧
      (∀ p ∈ s.entries, p.2.index ≤ ve.index) ∧
      (∀ p ∈ s.entries, p.2.index = ve.index → p = (vk, ve)) ∧
      (set (.bounded .LRU max) now v s).2.entries
        = (mapDelete s.entries vk).map
            (fun p => (p.1, { p.2 with index := p.2.index + 1 }))
          ++ [(s.nextKey, newEntry now v none)] ∧
      (newEntry now v (none : Option Nat)).index = 0 ∧
      (set (.bounded .LRU max) now v s).2.entries.length
        = s.entries.length := by
  have hn : 0 < s.entries.length := lt_of_lt_of_le hmax hcap
  have hmem : (s.entries.length - 1) ∈ s.entries.map (fun p => p.2.index) :=
    hperm.mem_iff.mpr (List.mem_range.mpr (by omega))
  obtain ⟨q, hq, hqi⟩ := List.mem_map.mp hmem
  have hfindsome : (s.entries.find?
      (fun p => p.2.index == s.entries.length - 1)).isSome :=
    List.find?_isSome.mpr ⟨q, hq, by simp [hqi]⟩
  obtain ⟨r, hr⟩ := Option.isSome_iff_exists.mp hfindsome
  have hri : r.2.index = s.entries.length - 1 := by
    simpa using List.find?_some hr
  have hrmem : r ∈ s.entries := List.mem_of_find?_eq_some hr
  have hk : _get_lru_key s.entries = some r.1 := by
    simp [_get_lru_key, hr]
  have hidxnd : (s.entries.map (fun p => p.2.index)).Nodup :=
    hperm.nodup_iff.mpr (List.nodup_range _)
  have hbound : ∀ p ∈ s.entries, p.2.index ≤ r.2.index := by
    intro p hp
    have : p.2.index ∈ List.range s.entries.length :=
      hperm.mem_iff.mp (List.mem_map_of_mem (fun p => p.2.index) hp)
    rw [List.mem_range] at this
    omega
  have heq : (set (.bounded .LRU max) now v s).2.entries
      = (mapDelete s.entries r.1).map
          (fun p => (p.1, { p.2 with index := p.2.index + 1 }))
        ++ [(s.nextKey, newEntry now v none)] := by
    simp only [set, hk]
    rw [if_pos hcap]
    refine mapSet_fresh ?_ _
    intro p hp
    obtain ⟨p1, hp1, hpe⟩ := List.mem_map.mp hp
    rw [← hpe]
    exact hfresh p1 (mapDelete_subset hp1)
  refine ⟨r.1, r.2, hk, mapGet_of_mem_nodup hnd hrmem, hri, hbound, ?_, heq,
    rfl, ?_⟩
  · intro p hp hpi
    have := List.inj_on_of_nodup_map hidxnd hp hrmem hpi
    rw [this]
  · have hrm2 : ((r.1, r.2) : Nat × CacheEntry α) ∈ s.entries := by
      simpa using hrmem
    rw [heq, List.length_append, List.length_singleton, List.length_map,
      length_mapDelete_of_mem hnd hrm2]

/-- C4 amended witness: in the two-entry demo state with ranks `[1, 0]`
(a permutation of `range 2`), a `set` at capacity 2 evicts key 0 — the unique
entry of maximum rank 1 — increments the survivor's rank and inserts the new
entry with rank 0. -/
theorem lru_set_evicts_unique_max_rank_witness :
    ∃ vk ve,
      _get_lru_key demoState.entries = some vk ∧
      mapGet demoState.entries vk = some ve ∧
      ve.index = demoState.entries.length - 1 ∧
      (∀ p ∈ demoState.entries, p.2.index ≤ ve.index) ∧
      (∀ p ∈ demoState.entries, p.2.index = ve.index → p = (vk, ve)) ∧
      (set (.bounded .LRU 2) 9 99 demoState).2.entries
        = (mapDelete demoState.entries vk).map
            (fun p => (p.1, { p.2 with index := p.2.index + 1 }))
          ++ [(2, newEntry 9 99 none)] ∧
      (newEntry 9 99 (none : Option Nat)).index = 0 ∧
      (set (.bounded .LRU 2) 9 99 demoState).2.entries.length
        = demoState.entries.length :=
  lru_set_evicts_unique_max_rank 2 9 99 demoState (by decide) (by decide)
    (by decide) (by decide) (by decide)

end BlankCache
